import Mathlib

/-!
# Verification of the Harmony Search pairing program (`src/main.py`)

The program searches for a permutation of an even-length list of numbers that
partitions it into consecutive pairs whose sums are close to the target
average.  We embed the program shallowly:

* numbers are rationals (`ℚ`); Python's `float('inf')` becomes `⊤` in
  `WithTop ℚ`;
* the ambient random source (`random.shuffle`, `random.sample`,
  `random.random`, `random.randint`) is made explicit: a `RandomDraws` value records
  every random draw a run consumes, and `ValidRand` states exactly the
  guarantees the Python `random` primitives provide (shuffles are
  permutations, sampled indices are distinct and in range, `randint` stays in
  its bounds);
* the `print` statements are pure output and are not modelled, except for the
  progress line `(iteration + 1) % (ni // 10) == 0`, whose integer modulo by
  zero raises `ZeroDivisionError` when `1 ≤ ni ≤ 9`; the top-level function
  therefore returns `Except Unit _`, with `Except.error ()` marking the raise.
-/

/-- Fitness values: rationals, or `⊤` for Python's `float('inf')`. -/
abbrev Fitness := WithTop ℚ

/-- `calculate_fitness(harmony, numbers, target_average)` from `src/main.py`
lines 5–29.  An empty harmony scores `float('inf')`; otherwise the loop over
`num_pairs = len(numbers) // 2` accumulates `abs(harmony[2i] + harmony[2i+1]
- target_average)` whenever both indices are in range, and otherwise adds the
penalty `float('inf') / num_pairs`, which is `inf` (hence `⊤`) since the loop
only runs when `num_pairs ≥ 1`. -/
def calculate_fitness (harmony numbers : List ℚ) (target_average : ℚ) : Fitness :=
  if harmony = [] then ⊤
  else
    (List.range (numbers.length / 2)).foldl
      (fun total_deviation i =>
        if 2 * i < harmony.length ∧ 2 * i + 1 < harmony.length then
          total_deviation +
            ((|harmony.getD (2 * i) 0 + harmony.getD (2 * i + 1) 0 - target_average| : ℚ) : Fitness)
        else
          total_deviation + ⊤)
      0

/-- `generate_random_harmony(numbers)` from `src/main.py` lines 33–37 copies
`numbers` and applies `random.shuffle` to the copy.  The shuffle's outcome is
a draw from the ambient random source, so the embedding receives it as the
explicit argument `shuffled`; the guarantee `random.shuffle` provides is
`RandomShuffleOK`. -/
def generate_random_harmony (numbers shuffled : List ℚ) : List ℚ :=
  let harmony := shuffled
  harmony

/-- What `random.shuffle` guarantees about its output: it is a permutation of
the list it was given (here, of a copy of `numbers`). -/
def RandomShuffleOK (numbers shuffled : List ℚ) : Prop :=
  shuffled.Perm numbers

/-- `apply_pitch_adjustment(harmony)` from `src/main.py` lines 39–49.  For a
harmony of length `< 2` it returns the input unchanged.  Otherwise
`random.sample(range(len(harmony)), 2)` draws two distinct in-range indices
`idx1, idx2` (explicit arguments here), and the simultaneous assignment
`harmony[idx1], harmony[idx2] = harmony[idx2], harmony[idx1]` swaps the two
entries: both right-hand sides are read from the original list. -/
def apply_pitch_adjustment (harmony : List ℚ) (idx1 idx2 : ℕ) : List ℚ :=
  if harmony.length < 2 then harmony
  else (harmony.set idx1 (harmony.getD idx2 0)).set idx2 (harmony.getD idx1 0)

/-- One record of the harmony memory: the Python dict
`{'harmony': ..., 'fitness': ...}` built at lines 85 and 124. -/
structure HarmonyRecord where
  harmony : List ℚ
  fitness : Fitness
deriving DecidableEq

/-- Placeholder record used as the default of `List.getD`/`List.headD`; never
read on valid runs (the memory always has `hms ≥ 1` records there). -/
def emptyRecord : HarmonyRecord :=
  ⟨[], ⊤⟩

/-- The random draws consumed by one improvisation iteration (lines 93–126):
`useMemory` is the outcome of `random.random() < hmcr`, `baseIdx` the draw of
`random.randint(0, hms - 1)`, `doAdjust` the outcome of
`random.random() < par`, `swapIdx1`/`swapIdx2` the indices from
`random.sample(range(len(harmony)), 2)` inside `apply_pitch_adjustment`, and
`shuffled` the output of `random.shuffle` inside `generate_random_harmony`. -/
structure IterChoice where
  useMemory : Bool
  baseIdx : ℕ
  doAdjust : Bool
  swapIdx1 : ℕ
  swapIdx2 : ℕ
  shuffled : List ℚ
deriving DecidableEq

/-- All random draws of one run: the `hms` shuffles of the initialization
loop (lines 82–85) and the per-iteration draws of the improvisation loop. -/
structure RandomDraws where
  initShuffles : List (List ℚ)
  iters : List IterChoice
deriving DecidableEq

/-- The sort key of `harmony_memory.sort(key=lambda x: x['fitness'])`. -/
def fitnessLE (a b : HarmonyRecord) : Bool :=
  decide (a.fitness ≤ b.fitness)

/-- `harmony_memory.sort(key=lambda x: x['fitness'])` (lines 88 and 126):
Python's stable sort, ascending by fitness. -/
def sortHM (harmony_memory : List HarmonyRecord) : List HarmonyRecord :=
  harmony_memory.mergeSort fitnessLE

/-- One iteration of the improvisation loop, `src/main.py` lines 93–126, as a
function of the current memory and the iteration's random draws: build the
candidate (memory copy, optionally pitch-adjusted, or a fresh shuffle), score
it, and replace the worst record (`harmony_memory[-1]`) followed by a re-sort
exactly when the candidate is strictly better. -/
def improvise_step (numbers : List ℚ) (target_average : ℚ)
    (harmony_memory : List HarmonyRecord) (c : IterChoice) : List HarmonyRecord :=
  let new_harmony :=
    if c.useMemory then
      let base_harmony := (harmony_memory.getD c.baseIdx emptyRecord).harmony
      if c.doAdjust then apply_pitch_adjustment base_harmony c.swapIdx1 c.swapIdx2
      else base_harmony
    else generate_random_harmony numbers c.shuffled
  let new_fitness := calculate_fitness new_harmony numbers target_average
  let worst_fitness := (harmony_memory.getLast?.getD emptyRecord).fitness
  if new_fitness < worst_fitness then
    sortHM (harmony_memory.dropLast ++ [⟨new_harmony, new_fitness⟩])
  else harmony_memory

/-- Initialization of the harmony memory, `src/main.py` lines 80–88: one
record per shuffle, each scored by `calculate_fitness`, then sorted ascending
by fitness. -/
def hs_init (numbers : List ℚ) (target_average : ℚ) (shuffles : List (List ℚ)) :
    List HarmonyRecord :=
  sortHM (shuffles.map fun s =>
    ⟨generate_random_harmony numbers s,
     calculate_fitness (generate_random_harmony numbers s) numbers target_average⟩)

/-- The harmony memory after the first `k` improvisation iterations of a run
whose random draws are `r` (state `k = 0` is the memory right after
initialization). -/
def hs_state (numbers : List ℚ) (target_average : ℚ) (hms : ℕ) (r : RandomDraws) (k : ℕ) :
    List HarmonyRecord :=
  (r.iters.take k).foldl (improvise_step numbers target_average)
    (hs_init numbers target_average (r.initShuffles.take hms))

/-- `target_average = total_sum / num_pairs` computed at lines 75–77. -/
def target_avg (numbers : List ℚ) : ℚ :=
  numbers.sum / ((numbers.length / 2 : ℕ) : ℚ)

/-- `harmony_search_pairing(numbers, hms, hmcr, par, ni)` from `src/main.py`
lines 52–155 (the `hmcr`/`par` comparisons are already folded into the
Boolean draws recorded in `r`).  Odd-length input returns `(None, inf)`
before any memory is built; empty input returns `([], 0)`.  Otherwise the
memory is initialized and the loop runs `ni` iterations; when `1 ≤ ni ≤ 9`
the progress line `(iteration + 1) % (ni // 10) == 0` divides by
`ni // 10 = 0` on the first iteration and the run raises `ZeroDivisionError`
(`Except.error ()`).  A completed run returns the harmony and fitness of the
best (first) record of the final memory. -/
def harmony_search_pairing (numbers : List ℚ) (hms ni : ℕ) (r : RandomDraws) :
    Except Unit (Option (List ℚ) × Fitness) :=
  if numbers.length % 2 ≠ 0 then Except.ok (none, ⊤)
  else if numbers.length = 0 then Except.ok (some [], 0)
  else if 0 < ni ∧ ni / 10 = 0 then Except.error ()
  else
    let best_solution := (hs_state numbers (target_avg numbers) hms r ni).headD emptyRecord
    Except.ok (some best_solution.harmony, best_solution.fitness)

/-- What the Python `random` primitives guarantee about the draws of one
iteration: `random.randint(0, hms - 1)` is `< hms`, the shuffle is a
permutation of `numbers`, and `random.sample(range(len(harmony)), 2)` yields
two distinct indices below `len(harmony)` (every harmony in play has the
length of `numbers`). -/
def ChoiceOK (numbers : List ℚ) (hms : ℕ) (c : IterChoice) : Prop :=
  c.baseIdx < hms ∧ RandomShuffleOK numbers c.shuffled ∧
    c.swapIdx1 < numbers.length ∧ c.swapIdx2 < numbers.length ∧
    c.swapIdx1 ≠ c.swapIdx2

/-- A valid record of the random draws of a run of
`harmony_search_pairing numbers hms ni _`: exactly `hms` initialization
shuffles and `ni` iteration draws, each satisfying the `random`-module
guarantees. -/
def ValidRand (numbers : List ℚ) (hms ni : ℕ) (r : RandomDraws) : Prop :=
  r.initShuffles.length = hms ∧ (∀ s ∈ r.initShuffles, RandomShuffleOK numbers s) ∧
    r.iters.length = ni ∧ ∀ c ∈ r.iters, ChoiceOK numbers hms c

/-- The harmony memory is sorted ascending by fitness. -/
def SortedByFitness (harmony_memory : List HarmonyRecord) : Prop :=
  harmony_memory.Pairwise fun a b => a.fitness ≤ b.fitness

/-- A single memory record is well formed for a run on `numbers` with target
`target_average`: its harmony is a permutation of `numbers` and its stored
fitness is the fitness of its stored harmony. -/
def HMRecOK (numbers : List ℚ) (target_average : ℚ) (rec : HarmonyRecord) : Prop :=
  rec.harmony.Perm numbers ∧
    rec.fitness = calculate_fitness rec.harmony numbers target_average

/-- The harmony-memory invariant: size exactly `hms`, sorted by fitness, and
every record well formed. -/
def HMInv (numbers : List ℚ) (target_average : ℚ) (hms : ℕ)
    (harmony_memory : List HarmonyRecord) : Prop :=
  harmony_memory.length = hms ∧ SortedByFitness harmony_memory ∧
    ∀ rec ∈ harmony_memory, HMRecOK numbers target_average rec

/-! ## Helper lemmas about `calculate_fitness` -/

/-- Folding `acc + g i` over `List.range n` computes the `Finset.range` sum. -/
theorem foldl_range_add_eq_sum (g : ℕ → Fitness) :
    ∀ (n : ℕ) (a : Fitness),
      (List.range n).foldl (fun acc i => acc + g i) a = a + ∑ i ∈ Finset.range n, g i := by
  intro n
  induction n with
  | zero => intro a; simp
  | succ m ih =>
    intro a
    rw [List.range_succ, List.foldl_append, ih, Finset.sum_range_succ]
    simp [add_assoc]

/-- On a harmony of full length over an even-length `numbers`, the defensive
out-of-range branch of `calculate_fitness` is never taken and the result is
the sum of the pairwise deviations. -/
theorem calculate_fitness_eq_sum (harmony numbers : List ℚ) (t : ℚ)
    (hlen : harmony.length = numbers.length) (heven : numbers.length % 2 = 0)
    (hne : harmony ≠ []) :
    calculate_fitness harmony numbers t =
      ((∑ i ∈ Finset.range (numbers.length / 2),
        |harmony.getD (2 * i) 0 + harmony.getD (2 * i + 1) 0 - t| : ℚ) : Fitness) := by
  unfold calculate_fitness
  rw [if_neg hne]
  have hext : (List.range (numbers.length / 2)).foldl
      (fun total_deviation i =>
        if 2 * i < harmony.length ∧ 2 * i + 1 < harmony.length then
          total_deviation +
            ((|harmony.getD (2 * i) 0 + harmony.getD (2 * i + 1) 0 - t| : ℚ) : Fitness)
        else total_deviation + ⊤) 0 =
      (List.range (numbers.length / 2)).foldl
        (fun acc i =>
          acc + ((|harmony.getD (2 * i) 0 + harmony.getD (2 * i + 1) 0 - t| : ℚ) : Fitness))
        0 := by
    apply List.foldl_ext
    intro acc i hi
    rw [List.mem_range] at hi
    have h1 : 2 * i < harmony.length := by rw [hlen]; omega
    have h2 : 2 * i + 1 < harmony.length := by rw [hlen]; omega
    rw [if_pos ⟨h1, h2⟩]
  rw [hext, foldl_range_add_eq_sum, zero_add, WithTop.coe_sum]

/-- Claim C1: for every full permutation `harmony` of the even-length input
`numbers`, `calculate_fitness harmony numbers t` is the sum over the `n / 2`
consecutive index pairs `(0,1), (2,3), …` of
`|harmony[2i] + harmony[2i+1] - t|`; the spec example
`calculate_fitness [1,9,2,8] [1,9,2,8] 5 = 10` holds; and the empty harmony
scores `+∞` (the claim's own convention for the empty case). -/
theorem C1_calculate_fitness_spec :
    (∀ (numbers harmony : List ℚ) (t : ℚ), numbers.length % 2 = 0 →
      harmony.Perm numbers → harmony ≠ [] →
      calculate_fitness harmony numbers t =
        ((∑ i ∈ Finset.range (numbers.length / 2),
          |harmony.getD (2 * i) 0 + harmony.getD (2 * i + 1) 0 - t| : ℚ) : Fitness)) ∧
    calculate_fitness [1, 9, 2, 8] [1, 9, 2, 8] 5 = ((10 : ℚ) : Fitness) ∧
    ∀ (numbers : List ℚ) (t : ℚ), calculate_fitness [] numbers t = ⊤ := by
  refine ⟨?_, ?_, ?_⟩
  · intro numbers harmony t heven hperm hne
    exact calculate_fitness_eq_sum harmony numbers t hperm.length_eq heven hne
  · rw [calculate_fitness, if_neg (by simp)]
    norm_num [List.range_succ]
  · intro numbers t
    rw [calculate_fitness, if_pos rfl]

/-- Witness for C1: the universal clause instantiated at the concrete
permutation `[2,8,1,9]` of `[1,9,2,8]` with target `3`. -/
theorem C1_witness :
    ([1, 9, 2, 8] : List ℚ).length % 2 = 0 ∧
      ([2, 8, 1, 9] : List ℚ).Perm [1, 9, 2, 8] ∧
      ([2, 8, 1, 9] : List ℚ) ≠ [] ∧
      calculate_fitness [2, 8, 1, 9] [1, 9, 2, 8] 3 =
        ((∑ i ∈ Finset.range (([1, 9, 2, 8] : List ℚ).length / 2),
          |([2, 8, 1, 9] : List ℚ).getD (2 * i) 0 +
            ([2, 8, 1, 9] : List ℚ).getD (2 * i + 1) 0 - 3| : ℚ) : Fitness) :=
  ⟨by decide, by decide, by decide,
    C1_calculate_fitness_spec.1 [1, 9, 2, 8] [2, 8, 1, 9] 3 (by decide) (by decide) (by decide)⟩

/-! ## The guard clauses of `harmony_search_pairing` (claims C6, C7, C8) -/

/-- A run that consumes no random draws at all. -/
def noDraws : RandomDraws :=
  ⟨[], []⟩

/-- Claim C6: on an odd-length input, `harmony_search_pairing` returns
`(None, inf)` for every random stream, every `hms` and every `ni`: the guard
fires before the harmony memory is built, so no harmony is ever generated or
evaluated (the result does not depend on `r` at all). -/
theorem C6_odd_input (numbers : List ℚ) (hms ni : ℕ) (r : RandomDraws)
    (hodd : numbers.length % 2 = 1) :
    harmony_search_pairing numbers hms ni r = Except.ok (none, ⊤) := by
  unfold harmony_search_pairing
  rw [if_pos (by omega)]

/-- Witness for C6: the spec's own example `[1,2,3]`. -/
theorem C6_witness :
    ([1, 2, 3] : List ℚ).length % 2 = 1 ∧
      harmony_search_pairing [1, 2, 3] 20 50 noDraws = Except.ok (none, ⊤) :=
  ⟨by decide, C6_odd_input [1, 2, 3] 20 50 noDraws (by decide)⟩

/-- Claim C7: on the empty input, `harmony_search_pairing` returns
`([], 0)` for every random stream, every `hms` and every `ni`: the guard
fires before the memory is initialized and before any improvisation
iteration. -/
theorem C7_empty_input (hms ni : ℕ) (r : RandomDraws) :
    harmony_search_pairing [] hms ni r = Except.ok (some [], 0) := by
  unfold harmony_search_pairing
  simp

/-- Claim C8 (refuting theorem): on every even-length non-empty input, for
every `hms`, every random stream and every `1 ≤ ni ≤ 9`, the run raises
`ZeroDivisionError` instead of completing: the progress line
`(iteration + 1) % (ni // 10) == 0` divides by `ni // 10 = 0` in the first
iteration. -/
theorem C8_small_ni_crashes (numbers : List ℚ) (hms ni : ℕ) (r : RandomDraws)
    (heven : numbers.length % 2 = 0) (hne : numbers ≠ []) (h1 : 1 ≤ ni) (h9 : ni ≤ 9) :
    harmony_search_pairing numbers hms ni r = Except.error () := by
  have hlen : numbers.length ≠ 0 := fun h => hne (List.length_eq_zero.mp h)
  unfold harmony_search_pairing
  rw [if_neg (by omega), if_neg hlen, if_pos (by omega)]

/-- Witness for C8's refuting theorem: the concrete failing input
`numbers = [1, 2]`, `hms = 1`, `ni = 5`. -/
theorem C8_witness :
    ([1, 2] : List ℚ).length % 2 = 0 ∧ ([1, 2] : List ℚ) ≠ [] ∧ 1 ≤ 5 ∧ 5 ≤ 9 ∧
      harmony_search_pairing [1, 2] 1 5 noDraws = Except.error () :=
  ⟨by decide, by decide, by decide, by decide,
    C8_small_ni_crashes [1, 2] 1 5 noDraws (by decide) (by decide) (by decide) (by decide)⟩

/-! ## Helper lemmas about `apply_pitch_adjustment` (claim C9) -/

/-- Moving the `i`-th element of `l` to the front while writing `a` into
position `i` permutes `a :: l`. -/
theorem getD_cons_set_perm :
    ∀ (l : List ℚ) (i : ℕ) (a : ℚ), i < l.length →
      (l.getD i 0 :: l.set i a).Perm (a :: l) := by
  intro l
  induction l with
  | nil => intro i a h; simp at h
  | cons b t ih =>
    intro i a h
    cases i with
    | zero =>
      simp only [List.getD_cons_zero, List.set_cons_zero]
      exact List.Perm.swap a b t
    | succ m =>
      simp only [List.getD_cons_succ, List.set_cons_succ]
      have h1 : (t.getD m 0 :: b :: t.set m a).Perm (b :: t.getD m 0 :: t.set m a) :=
        List.Perm.swap b (t.getD m 0) (t.set m a)
      have h2 : (b :: t.getD m 0 :: t.set m a).Perm (b :: a :: t) :=
        (ih m a (by simpa using h)).cons b
      have h3 : (b :: a :: t).Perm (a :: b :: t) := List.Perm.swap a b t
      exact (h1.trans h2).trans h3

/-- Swapping the entries at positions `i < j` permutes the list. -/
theorem set_set_perm_lt :
    ∀ (l : List ℚ) (i j : ℕ), i < j → j < l.length →
      ((l.set i (l.getD j 0)).set j (l.getD i 0)).Perm l := by
  intro l
  induction l with
  | nil => intro i j _ hj; simp at hj
  | cons b t ih =>
    intro i j hij hj
    cases i with
    | zero =>
      cases j with
      | zero => omega
      | succ m =>
        simp only [List.getD_cons_succ, List.getD_cons_zero, List.set_cons_zero,
          List.set_cons_succ]
        exact getD_cons_set_perm t m b (by simpa using hj)
    | succ i' =>
      cases j with
      | zero => omega
      | succ m =>
        simp only [List.getD_cons_succ, List.set_cons_succ]
        exact (ih i' m (by omega) (by simpa using hj)).cons b

/-- Swapping the entries at two distinct in-range positions permutes the
list. -/
theorem swap_set_perm (l : List ℚ) (i j : ℕ) (hi : i < l.length) (hj : j < l.length)
    (hij : i ≠ j) : ((l.set i (l.getD j 0)).set j (l.getD i 0)).Perm l := by
  rcases Nat.lt_or_ge i j with h | h
  · exact set_set_perm_lt l i j h hj
  · rw [List.set_comm _ _ _ hij]
    exact set_set_perm_lt l j i (by omega) hi

/-- `apply_pitch_adjustment` with two distinct in-range indices returns a
permutation of its input. -/
theorem apply_pitch_adjustment_perm (harmony : List ℚ) (i j : ℕ)
    (hi : i < harmony.length) (hj : j < harmony.length) (hij : i ≠ j) :
    (apply_pitch_adjustment harmony i j).Perm harmony := by
  unfold apply_pitch_adjustment
  split
  · exact List.Perm.refl _
  · exact swap_set_perm harmony i j hi hj hij

/-- `apply_pitch_adjustment` leaves every position other than the two chosen
indices unchanged. -/
theorem apply_pitch_adjustment_getD_of_ne (harmony : List ℚ) (i j k : ℕ)
    (hki : k ≠ i) (hkj : k ≠ j) :
    (apply_pitch_adjustment harmony i j).getD k 0 = harmony.getD k 0 := by
  unfold apply_pitch_adjustment
  split
  · rfl
  · rw [List.getD_eq_getElem?_getD, List.getD_eq_getElem?_getD,
      List.getElem?_set_ne (by omega), List.getElem?_set_ne (by omega),
      List.getD_eq_getElem?_getD]

/-- `apply_pitch_adjustment` changes the list in at most two positions. -/
theorem apply_pitch_adjustment_diff_card (harmony : List ℚ) (i j : ℕ) :
    ((Finset.range harmony.length).filter
      (fun k => (apply_pitch_adjustment harmony i j).getD k 0 ≠ harmony.getD k 0)).card ≤ 2 := by
  have hsub : ((Finset.range harmony.length).filter
      (fun k => (apply_pitch_adjustment harmony i j).getD k 0 ≠ harmony.getD k 0)) ⊆
        ({i, j} : Finset ℕ) := by
    intro k hk
    rw [Finset.mem_filter] at hk
    by_contra hmem
    rw [Finset.mem_insert, Finset.mem_singleton] at hmem
    push_neg at hmem
    exact hk.2 (apply_pitch_adjustment_getD_of_ne harmony i j k hmem.1 hmem.2)
  calc ((Finset.range harmony.length).filter
      (fun k => (apply_pitch_adjustment harmony i j).getD k 0 ≠ harmony.getD k 0)).card
      ≤ ({i, j} : Finset ℕ).card := Finset.card_le_card hsub
    _ ≤ 2 := (Finset.card_insert_le i {j}).trans (by simp)

/-- Claim C9: with the two distinct in-range indices drawn by
`random.sample`, `apply_pitch_adjustment` returns a permutation of the same
multiset that differs from the input in at most 2 positions; on a harmony of
length `< 2` it returns the input unchanged. -/
theorem C9_apply_pitch_adjustment_spec (harmony : List ℚ) (idx1 idx2 : ℕ) :
    (harmony.length < 2 → apply_pitch_adjustment harmony idx1 idx2 = harmony) ∧
    (idx1 < harmony.length → idx2 < harmony.length → idx1 ≠ idx2 →
      (apply_pitch_adjustment harmony idx1 idx2).Perm harmony ∧
      ((Finset.range harmony.length).filter
        (fun k => (apply_pitch_adjustment harmony idx1 idx2).getD k 0 ≠
          harmony.getD k 0)).card ≤ 2) := by
  refine ⟨fun hlt => ?_, fun h1 h2 hne => ⟨?_, ?_⟩⟩
  · unfold apply_pitch_adjustment
    rw [if_pos hlt]
  · exact apply_pitch_adjustment_perm harmony idx1 idx2 h1 h2 hne
  · exact apply_pitch_adjustment_diff_card harmony idx1 idx2

/-- Witness for C9: the swap branch instantiated on `[1, 2, 3]` with indices
`0` and `2`. -/
theorem C9_witness :
    ((0 : ℕ) < ([1, 2, 3] : List ℚ).length ∧ (2 : ℕ) < ([1, 2, 3] : List ℚ).length ∧
      (0 : ℕ) ≠ 2) ∧
      (apply_pitch_adjustment [1, 2, 3] 0 2).Perm [1, 2, 3] ∧
      ((Finset.range ([1, 2, 3] : List ℚ).length).filter
        (fun k => (apply_pitch_adjustment [1, 2, 3] 0 2).getD k 0 ≠
          ([1, 2, 3] : List ℚ).getD k 0)).card ≤ 2 :=
  ⟨⟨by decide, by decide, by decide⟩,
    (C9_apply_pitch_adjustment_spec [1, 2, 3] 0 2).2 (by decide) (by decide) (by decide)⟩

/-! ## Helper lemmas about `sortHM` -/

/-- `sortHM` permutes its input. -/
theorem sortHM_perm (l : List HarmonyRecord) : (sortHM l).Perm l :=
  List.mergeSort_perm l fitnessLE

/-- `sortHM` preserves length. -/
theorem sortHM_length (l : List HarmonyRecord) : (sortHM l).length = l.length :=
  (sortHM_perm l).length_eq

/-- `sortHM` preserves membership. -/
theorem sortHM_mem (x : HarmonyRecord) (l : List HarmonyRecord) : x ∈ sortHM l ↔ x ∈ l :=
  (sortHM_perm l).mem_iff

/-- `sortHM` sorts ascending by fitness. -/
theorem sortHM_sorted (l : List HarmonyRecord) : SortedByFitness (sortHM l) := by
  have htrans : ∀ a b c : HarmonyRecord, fitnessLE a b → fitnessLE b c → fitnessLE a c := by
    intro a b c hab hbc
    simp only [fitnessLE, decide_eq_true_eq] at hab hbc ⊢
    exact le_trans hab hbc
  have htotal : ∀ a b : HarmonyRecord, fitnessLE a b || fitnessLE b a := by
    intro a b
    simp only [fitnessLE, Bool.or_eq_true, decide_eq_true_eq]
    exact le_total a.fitness b.fitness
  have h := List.sorted_mergeSort htrans htotal l
  unfold SortedByFitness
  refine h.imp ?_
  intro a b hab
  simpa only [fitnessLE, decide_eq_true_eq] using hab

/-- In a fitness-sorted memory the first record has the least fitness. -/
theorem head_le_of_sorted (l : List HarmonyRecord) (hs : SortedByFitness l)
    (x : HarmonyRecord) (hx : x ∈ l) :
    (l.headD emptyRecord).fitness ≤ x.fitness := by
  cases l with
  | nil => simp at hx
  | cons a t =>
    unfold SortedByFitness at hs
    rw [List.pairwise_cons] at hs
    rcases List.mem_cons.mp hx with rfl | hxt
    · simp
    · simpa using hs.1 x hxt

/-- The first element of a list with at least two elements survives
`dropLast`. -/
theorem headD_mem_dropLast (l : List HarmonyRecord) (h : 2 ≤ l.length) :
    l.headD emptyRecord ∈ l.dropLast := by
  cases l with
  | nil => simp at h
  | cons a t =>
    cases t with
    | nil => simp at h
    | cons b u => simp [List.dropLast_cons₂]

/-- The default head of a non-empty list is a member. -/
theorem headD_mem (l : List HarmonyRecord) (h : l ≠ []) : l.headD emptyRecord ∈ l := by
  cases l with
  | nil => exact absurd rfl h
  | cons a t => simp

/-! ## The improvisation step: case analysis and invariant preservation -/

/-- Each improvisation iteration either leaves the memory unchanged or
replaces the worst (last) record by a strictly better freshly scored
candidate and re-sorts; the candidate is a fresh shuffle, a copy of a memory
record, or a pitch-adjusted copy of a memory record. -/
theorem improvise_step_cases (numbers : List ℚ) (t : ℚ) (hm : List HarmonyRecord)
    (c : IterChoice) :
    improvise_step numbers t hm c = hm ∨
      ∃ nh, improvise_step numbers t hm c =
          sortHM (hm.dropLast ++ [⟨nh, calculate_fitness nh numbers t⟩]) ∧
        calculate_fitness nh numbers t < (hm.getLast?.getD emptyRecord).fitness ∧
        (nh = c.shuffled ∨ nh = (hm.getD c.baseIdx emptyRecord).harmony ∨
          nh = apply_pitch_adjustment (hm.getD c.baseIdx emptyRecord).harmony
            c.swapIdx1 c.swapIdx2) := by
  simp only [improvise_step, generate_random_harmony]
  cases hu : c.useMemory
  · rw [if_neg Bool.false_ne_true]
    split
    · next hlt => exact Or.inr ⟨c.shuffled, rfl, hlt, Or.inl rfl⟩
    · exact Or.inl rfl
  · rw [if_pos rfl]
    cases ha : c.doAdjust
    · rw [if_neg Bool.false_ne_true]
      split
      · next hlt =>
          exact Or.inr ⟨(hm.getD c.baseIdx emptyRecord).harmony, rfl, hlt, Or.inr (Or.inl rfl)⟩
      · exact Or.inl rfl
    · rw [if_pos rfl]
      split
      · next hlt =>
          exact Or.inr ⟨apply_pitch_adjustment (hm.getD c.baseIdx emptyRecord).harmony
            c.swapIdx1 c.swapIdx2, rfl, hlt, Or.inr (Or.inr rfl)⟩
      · exact Or.inl rfl

/-- Replacing the worst record by a well-formed record and re-sorting
preserves the memory invariant. -/
theorem replace_worst_inv (numbers : List ℚ) (t : ℚ) (hms : ℕ) (hm : List HarmonyRecord)
    (rec : HarmonyRecord) (hinv : HMInv numbers t hms hm) (h1 : 1 ≤ hms)
    (hrec : HMRecOK numbers t rec) :
    HMInv numbers t hms (sortHM (hm.dropLast ++ [rec])) := by
  obtain ⟨hlen, _, hmem⟩ := hinv
  refine ⟨?_, sortHM_sorted _, ?_⟩
  · rw [sortHM_length, List.length_append, List.length_dropLast, hlen]
    simp only [List.length_singleton]
    omega
  · intro x hx
    rw [sortHM_mem, List.mem_append] at hx
    rcases hx with hx | hx
    · exact hmem x (List.dropLast_subset hm hx)
    · rw [List.mem_singleton] at hx
      subst hx
      exact hrec

/-- An in-range `getD` of the memory is a member. -/
theorem getD_mem_of_lt (hm : List HarmonyRecord) (i : ℕ) (h : i < hm.length) :
    hm.getD i emptyRecord ∈ hm := by
  rw [List.getD_eq_getElem?_getD, List.getElem?_eq_getElem h]
  exact List.getElem_mem h

/-- One improvisation iteration with draws satisfying the `random`-module
guarantees preserves the memory invariant. -/
theorem improvise_step_inv (numbers : List ℚ) (t : ℚ) (hms : ℕ) (hm : List HarmonyRecord)
    (c : IterChoice) (hinv : HMInv numbers t hms hm) (h1 : 1 ≤ hms)
    (hc : ChoiceOK numbers hms c) : HMInv numbers t hms (improvise_step numbers t hm c) := by
  rcases improvise_step_cases numbers t hm c with heq | ⟨nh, heq, _, hnh⟩
  · rw [heq]; exact hinv
  · rw [heq]
    apply replace_worst_inv numbers t hms hm _ hinv h1
    obtain ⟨hbase, hshuf, hs1, hs2, hsne⟩ := hc
    have hbmem : (hm.getD c.baseIdx emptyRecord).harmony.Perm numbers := by
    
      have hx : hm.getD c.baseIdx emptyRecord ∈ hm :=
        getD_mem_of_lt hm c.baseIdx (by rw [hinv.1]; exact hbase)
      exact (hinv.2.2 _ hx).1
    refine ⟨?_, rfl⟩
    rcases hnh with rfl | rfl | rfl
    · exact hshuf
    · exact hbmem
    · have hblen : (hm.getD c.baseIdx emptyRecord).harmony.length = numbers.length :=
        hbmem.length_eq
      exact (apply_pitch_adjustment_perm _ c.swapIdx1 c.swapIdx2
        (by rw [hblen]; exact hs1) (by rw [hblen]; exact hs2) hsne).trans hbmem

/-- The memory invariant is preserved by any sequence of valid improvisation
iterations. -/
theorem foldl_improvise_inv (numbers : List ℚ) (t : ℚ) (hms : ℕ) :
    ∀ (cs : List IterChoice) (hm : List HarmonyRecord), HMInv numbers t hms hm → 1 ≤ hms →
      (∀ c ∈ cs, ChoiceOK numbers hms c) →
      HMInv numbers t hms (cs.foldl (improvise_step numbers t) hm) := by
  intro cs
  induction cs with
  | nil => intro hm h _ _; exact h
  | cons c cs ih =>
    intro hm h h1 hcs
    rw [List.foldl_cons]
    exact ih _ (improvise_step_inv numbers t hms hm c h h1 (hcs c (List.mem_cons_self c cs)))
      h1 (fun x hx => hcs x (List.mem_cons_of_mem c hx))

/-- The freshly initialized memory satisfies the invariant. -/
theorem hs_init_inv (numbers : List ℚ) (t : ℚ) (hms : ℕ) (shuffles : List (List ℚ))
    (hlen : shuffles.length = hms) (hperm : ∀ s ∈ shuffles, RandomShuffleOK numbers s) :
    HMInv numbers t hms (hs_init numbers t shuffles) := by
  refine ⟨?_, sortHM_sorted _, ?_⟩
  · rw [hs_init, sortHM_length, List.length_map, hlen]
  · intro x hx
    rw [hs_init, sortHM_mem, List.mem_map] at hx
    obtain ⟨s, hs, rfl⟩ := hx
    exact ⟨hperm s hs, rfl⟩

/-- The memory invariant holds after initialization and after every
improvisation iteration of every valid run. -/
theorem hs_state_inv (numbers : List ℚ) (t : ℚ) (hms ni : ℕ) (r : RandomDraws) (k : ℕ)
    (hv : ValidRand numbers hms ni r) (h1 : 1 ≤ hms) :
    HMInv numbers t hms (hs_state numbers t hms r k) := by
  obtain ⟨hlen, hperm, _, hcs⟩ := hv
  unfold hs_state
  apply foldl_improvise_inv
  · apply hs_init_inv
    · rw [← hlen, List.take_length]
    · intro s hs
      exact hperm s (List.take_subset _ _ hs)
  · exact h1
  · intro c hc
    exact hcs c (List.take_subset _ _ hc)

/-- Unfolding one more iteration of `hs_state`. -/
theorem hs_state_succ (numbers : List ℚ) (t : ℚ) (hms : ℕ) (r : RandomDraws) (k : ℕ) :
    hs_state numbers t hms r (k + 1) =
      (match r.iters[k]? with
       | some c => improvise_step numbers t (hs_state numbers t hms r k) c
       | none => hs_state numbers t hms r k) := by
  unfold hs_state
  rw [List.take_succ, List.foldl_append]
  cases h : r.iters[k]? with
  | none => simp
  | some c => simp

/-- One valid improvisation iteration never increases the fitness of the
best (first) record. -/
theorem improvise_step_head_mono (numbers : List ℚ) (t : ℚ) (hms : ℕ)
    (hm : List HarmonyRecord) (c : IterChoice) (hinv : HMInv numbers t hms hm)
    (h1 : 1 ≤ hms) :
    ((improvise_step numbers t hm c).headD emptyRecord).fitness ≤
      (hm.headD emptyRecord).fitness := by
  rcases improvise_step_cases numbers t hm c with heq | ⟨nh, heq, hlt, _⟩
  · rw [heq]
  · rw [heq]
    rcases Nat.lt_or_ge hms 2 with h2 | h2
    · have hone : hm.length = 1 := by rw [hinv.1]; omega
      obtain ⟨a, ha⟩ := List.length_eq_one.mp hone
      subst ha
      have hworst : (([a] : List HarmonyRecord).getLast?.getD emptyRecord) = a := rfl
      rw [hworst] at hlt
      simp only [List.dropLast_single, List.nil_append, sortHM, List.mergeSort_singleton,
        List.headD_cons]
      exact le_of_lt hlt
    · have hhd : hm.headD emptyRecord ∈ hm.dropLast :=
        headD_mem_dropLast hm (by rw [hinv.1]; omega)
      exact head_le_of_sorted _ (sortHM_sorted _) _
        ((sortHM_mem _ _).mpr (List.mem_append_left _ hhd))

/-! ## Claims C2–C5 and C10 -/

/-- Claim C2: in every valid run (even non-empty `numbers`, `hms ≥ 1`), the
fitness of the first (best) record of the harmony memory never increases
from one improvisation iteration to the next. -/
theorem C2_best_fitness_monotone (numbers : List ℚ) (hms ni : ℕ) (r : RandomDraws) (k : ℕ)
    (heven : numbers.length % 2 = 0) (hne : numbers ≠ []) (h1 : 1 ≤ hms)
    (hv : ValidRand numbers hms ni r) :
    ((hs_state numbers (target_avg numbers) hms r (k + 1)).headD emptyRecord).fitness ≤
      ((hs_state numbers (target_avg numbers) hms r k).headD emptyRecord).fitness := by
  rw [hs_state_succ]
  cases h : r.iters[k]? with
  | none => exact le_refl _
  | some c =>
    exact improvise_step_head_mono numbers (target_avg numbers) hms _ c
      (hs_state_inv numbers (target_avg numbers) hms ni r k hv h1) h1

/-- Claim C3: in every valid run, the harmony memory is sorted non-decreasing
by fitness after initialization (`k = 0`) and after every improvisation
iteration. -/
theorem C3_memory_sorted (numbers : List ℚ) (hms ni : ℕ) (r : RandomDraws) (k : ℕ)
    (heven : numbers.length % 2 = 0) (hne : numbers ≠ []) (h1 : 1 ≤ hms)
    (hv : ValidRand numbers hms ni r) :
    SortedByFitness (hs_state numbers (target_avg numbers) hms r k) :=
  (hs_state_inv numbers (target_avg numbers) hms ni r k hv h1).2.1

/-- Claim C4: in every valid run, the harmony memory holds exactly `hms`
records after initialization (`k = 0`) and after every improvisation
iteration: replacing the worst record never changes the length. -/
theorem C4_memory_size (numbers : List ℚ) (hms ni : ℕ) (r : RandomDraws) (k : ℕ)
    (heven : numbers.length % 2 = 0) (hne : numbers ≠ []) (h1 : 1 ≤ hms)
    (hv : ValidRand numbers hms ni r) :
    (hs_state numbers (target_avg numbers) hms r k).length = hms :=
  (hs_state_inv numbers (target_avg numbers) hms ni r k hv h1).1

/-- Claim C5: in every valid run, every harmony ever stored in the harmony
memory — at initialization (`k = 0`) or by replacement during any iteration —
is a permutation of the input: its multiset of elements is exactly that of
`numbers`. -/
theorem C5_permutation_invariant (numbers : List ℚ) (hms ni : ℕ) (r : RandomDraws) (k : ℕ)
    (heven : numbers.length % 2 = 0) (hne : numbers ≠ []) (h1 : 1 ≤ hms)
    (hv : ValidRand numbers hms ni r) :
    ∀ rec ∈ hs_state numbers (target_avg numbers) hms r k, rec.harmony.Perm numbers :=
  fun rec h =>
    ((hs_state_inv numbers (target_avg numbers) hms ni r k hv h1).2.2 rec h).1

/-- Claim C10 (amended to non-empty input): in every valid run on a
non-empty even-length input, every memory record is self-consistent — its
stored fitness equals `calculate_fitness` of its stored harmony — and
whenever the run returns normally with a harmony, the returned fitness is
`calculate_fitness` of the returned harmony. -/
theorem C10_fitness_consistent (numbers : List ℚ) (hms ni : ℕ) (r : RandomDraws)
    (heven : numbers.length % 2 = 0) (hne : numbers ≠ []) (h1 : 1 ≤ hms)
    (hv : ValidRand numbers hms ni r) :
    (∀ (k : ℕ), ∀ rec ∈ hs_state numbers (target_avg numbers) hms r k,
      rec.fitness = calculate_fitness rec.harmony numbers (target_avg numbers)) ∧
    ∀ (bh : List ℚ) (bf : Fitness),
      harmony_search_pairing numbers hms ni r = Except.ok (some bh, bf) →
      bf = calculate_fitness bh numbers (target_avg numbers) := by
  constructor
  · intro k rec h
    exact ((hs_state_inv numbers (target_avg numbers) hms ni r k hv h1).2.2 rec h).2
  · intro bh bf hok
    unfold harmony_search_pairing at hok
    rw [if_neg (by omega), if_neg (fun h => hne (List.length_eq_zero.mp h))] at hok
    by_cases hni : 0 < ni ∧ ni / 10 = 0
    · rw [if_pos hni] at hok
      cases hok
    · rw [if_neg hni] at hok
      simp only [Except.ok.injEq, Prod.mk.injEq, Option.some.injEq] at hok
      obtain ⟨hbh, hbf⟩ := hok
      subst hbh
      subst hbf
      have hinv := hs_state_inv numbers (target_avg numbers) hms ni r ni hv h1
      have hsne : hs_state numbers (target_avg numbers) hms r ni ≠ [] := by
        intro h
        rw [h] at hinv
        have := hinv.1
        simp at this
        omega
      exact (hinv.2.2 _ (headD_mem _ hsne)).2

/-! ## Concrete fixtures for the witnesses -/

/-- Concrete input for the witnesses: the spec's example `[1, 9, 2, 8]`. -/
def wNumbers : List ℚ :=
  [1, 9, 2, 8]

/-- A concrete iteration draw: take memory record 0, pitch-adjust by
swapping positions 0 and 1 (the shuffle draw is present but unused on this
branch). -/
def wChoice : IterChoice :=
  ⟨true, 0, true, 0, 1, [2, 8, 1, 9]⟩

/-- Concrete draws for a run with `hms = 2`, `ni = 1` on `wNumbers`. -/
def wDraws : RandomDraws :=
  ⟨[[1, 9, 2, 8], [9, 1, 8, 2]], [wChoice]⟩

/-- Witness for C2: the concrete run on `[1, 9, 2, 8]` with `hms = 2`,
`ni = 1`, comparing the best fitness after iteration 1 with the one after
initialization. -/
theorem C2_witness :
    (wNumbers.length % 2 = 0 ∧ wNumbers ≠ [] ∧ 1 ≤ 2 ∧ ValidRand wNumbers 2 1 wDraws) ∧
      ((hs_state wNumbers (target_avg wNumbers) 2 wDraws (0 + 1)).headD emptyRecord).fitness ≤
        ((hs_state wNumbers (target_avg wNumbers) 2 wDraws 0).headD emptyRecord).fitness :=
  ⟨⟨by decide, by decide, by decide, by unfold ValidRand ChoiceOK RandomShuffleOK; decide⟩,
    C2_best_fitness_monotone wNumbers 2 1 wDraws 0 (by decide) (by decide) (by decide)
      (by unfold ValidRand ChoiceOK RandomShuffleOK; decide)⟩

/-- Witness for C3: sortedness of the concrete run's memory after its one
iteration. -/
theorem C3_witness :
    (wNumbers.length % 2 = 0 ∧ wNumbers ≠ [] ∧ 1 ≤ 2 ∧ ValidRand wNumbers 2 1 wDraws) ∧
      SortedByFitness (hs_state wNumbers (target_avg wNumbers) 2 wDraws 1) :=
  ⟨⟨by decide, by decide, by decide, by unfold ValidRand ChoiceOK RandomShuffleOK; decide⟩,
    C3_memory_sorted wNumbers 2 1 wDraws 1 (by decide) (by decide) (by decide)
      (by unfold ValidRand ChoiceOK RandomShuffleOK; decide)⟩

/-- Witness for C4: the concrete run's memory still has exactly 2 records
after its one iteration. -/
theorem C4_witness :
    (wNumbers.length % 2 = 0 ∧ wNumbers ≠ [] ∧ 1 ≤ 2 ∧ ValidRand wNumbers 2 1 wDraws) ∧
      (hs_state wNumbers (target_avg wNumbers) 2 wDraws 1).length = 2 :=
  ⟨⟨by decide, by decide, by decide, by unfold ValidRand ChoiceOK RandomShuffleOK; decide⟩,
    C4_memory_size wNumbers 2 1 wDraws 1 (by decide) (by decide) (by decide)
      (by unfold ValidRand ChoiceOK RandomShuffleOK; decide)⟩

/-- Witness for C5: every record of the concrete run's memory after its one
iteration is a permutation of `[1, 9, 2, 8]`. -/
theorem C5_witness :
    (wNumbers.length % 2 = 0 ∧ wNumbers ≠ [] ∧ 1 ≤ 2 ∧ ValidRand wNumbers 2 1 wDraws) ∧
      ∀ rec ∈ hs_state wNumbers (target_avg wNumbers) 2 wDraws 1, rec.harmony.Perm wNumbers :=
  ⟨⟨by decide, by decide, by decide, by unfold ValidRand ChoiceOK RandomShuffleOK; decide⟩,
    C5_permutation_invariant wNumbers 2 1 wDraws 1 (by decide) (by decide) (by decide)
      (by unfold ValidRand ChoiceOK RandomShuffleOK; decide)⟩

/-- Witness for C10's amended theorem, on the concrete run. -/
theorem C10_witness :
    (wNumbers.length % 2 = 0 ∧ wNumbers ≠ [] ∧ 1 ≤ 2 ∧ ValidRand wNumbers 2 1 wDraws) ∧
      ((∀ (k : ℕ), ∀ rec ∈ hs_state wNumbers (target_avg wNumbers) 2 wDraws k,
        rec.fitness = calculate_fitness rec.harmony wNumbers (target_avg wNumbers)) ∧
      ∀ (bh : List ℚ) (bf : Fitness),
        harmony_search_pairing wNumbers 2 1 wDraws = Except.ok (some bh, bf) →
        bf = calculate_fitness bh wNumbers (target_avg wNumbers)) :=
  ⟨⟨by decide, by decide, by decide, by unfold ValidRand ChoiceOK RandomShuffleOK; decide⟩,
    C10_fitness_consistent wNumbers 2 1 wDraws (by decide) (by decide) (by decide)
      (by unfold ValidRand ChoiceOK RandomShuffleOK; decide)⟩

/-- Draws for a (trivially valid) run on the empty input with `hms = 1`,
`ni = 0`. -/
def wEmptyDraws : RandomDraws :=
  ⟨[[]], []⟩

/-- Counterexample to C10 as literally stated ("in every run ... the
best_fitness finally returned equals `calculate_fitness` of the returned
best_harmony"): the run on the empty input is valid, returns the harmony
`[]` with fitness `0`, yet `calculate_fitness` of `[]` is `⊤` by the empty
convention, not `0`. -/
theorem C10_counterexample :
    ValidRand [] 1 0 wEmptyDraws ∧
      harmony_search_pairing [] 1 0 wEmptyDraws = Except.ok (some [], 0) ∧
      (0 : Fitness) ≠ calculate_fitness [] [] (target_avg []) := by
  refine ⟨by unfold ValidRand ChoiceOK RandomShuffleOK; decide, ?_, ?_⟩
  · unfold harmony_search_pairing
    rw [if_neg (by decide), if_pos (show ([] : List ℚ).length = 0 from rfl)]
  · unfold calculate_fitness
    rw [if_pos rfl]
    decide
